import Mathlib

/-!
Verification of the mqttui topic tree, poll/drain loop, and MQTT worker.

The definitions below are a shallow embedding of the Rust sources:
`src/mqtt/topic_tree.rs` (TopicNode, TopicTree), `src/app/mod.rs`
(poll_connections and cache rebuilding), `src/app/mqtt_worker.rs`
(host fallback, subscribe/publish QoS mapping, initial subscriptions)
and `src/app/views/topic_tree.rs` (collect_tree_nodes_static).

Modelling conventions: Rust `HashMap<String, TopicNode>` children are
represented as an association list with unique keys (`ChildMap`); insertion
order of the model is irrelevant to every consumer (lookups are by key,
counters are order independent, and the view sorts by key, exactly as the
Rust code does before displaying).  `usize` counters are `Nat`, byte vectors
are `List Nat`, and the capture timestamp is an abstract `Nat`.
-/

/-- Mirror of `MqttMessage` (src/mqtt/message.rs): topic, raw payload bytes,
QoS byte, retained flag, capture timestamp (abstracted to a tick count). -/
structure MqttMessage where
  topic : String
  payload : List Nat
  qos : Nat
  retain : Bool
  timestamp : Nat
deriving DecidableEq, Repr

mutual

/-- Mirror of `TopicNode` (src/mqtt/topic_tree.rs): one path segment of the
topic namespace.  `children` is the `HashMap<String, TopicNode>` field. -/
inductive TopicNode : Type where
  | mk (name : String) (full_path : String) (children : ChildMap)
       (messages : List MqttMessage) (message_count : Nat) (expanded : Bool) : TopicNode

/-- Association list of child-segment name to child node, embedding the
Rust `HashMap<String, TopicNode>` (keys unique, order immaterial). -/
inductive ChildMap : Type where
  | nil : ChildMap
  | cons (key : String) (node : TopicNode) (rest : ChildMap) : ChildMap

end

/-- Field accessor for `TopicNode.name`. -/
def TopicNode.name : TopicNode → String
  | .mk n _ _ _ _ _ => n

/-- Field accessor for `TopicNode.full_path`. -/
def TopicNode.full_path : TopicNode → String
  | .mk _ fp _ _ _ _ => fp

/-- Field accessor for `TopicNode.children`. -/
def TopicNode.children : TopicNode → ChildMap
  | .mk _ _ ch _ _ _ => ch

/-- Field accessor for `TopicNode.messages`. -/
def TopicNode.messages : TopicNode → List MqttMessage
  | .mk _ _ _ ms _ _ => ms

/-- Field accessor for `TopicNode.message_count`. -/
def TopicNode.message_count : TopicNode → Nat
  | .mk _ _ _ _ mc _ => mc

/-- Field accessor for `TopicNode.expanded`. -/
def TopicNode.expanded : TopicNode → Bool
  | .mk _ _ _ _ _ ex => ex

/-- Key lookup in the children map, i.e. `self.children.get(part)`. -/
def ChildMap.lookup : ChildMap → String → Option TopicNode
  | .nil, _ => none
  | .cons k c rest, p => if k = p then some c else ChildMap.lookup rest p

/-- Store a child under a key: replaces the entry if the key is present,
otherwise adds a new entry.  Together with `ChildMap.lookup` this embeds the
Rust `self.children.entry(part).or_insert_with(..)` followed by mutation of
the obtained child. -/
def ChildMap.store : ChildMap → String → TopicNode → ChildMap
  | .nil, p, c => .cons p c .nil
  | .cons k old rest, p, c =>
    if k = p then .cons p c rest else .cons k old (ChildMap.store rest p c)

/-- True exactly when the children map is empty (`self.children.is_empty()`). -/
def ChildMap.isNil : ChildMap → Bool
  | .nil => true
  | .cons _ _ _ => false

/-- Mirror of `TopicNode::new(name, full_path)`. -/
def TopicNode.new (name full_path : String) : TopicNode :=
  .mk name full_path .nil [] 0 false

/-- The child path computation inlined in `TopicNode::insert_message`:
`if self.full_path.is_empty() { part } else { format!("{}/{}", self.full_path, part) }`.
Note that joining an empty parent path yields the bare segment (so the
direct children of the root get `full_path = name`). -/
def joinPath (parent name : String) : String :=
  if parent.isEmpty then name else parent ++ "/" ++ name

/-- The ring-buffer step of `TopicNode::insert_message`:
`self.messages.push(message); if self.messages.len() > 100 { self.messages.remove(0); }`. -/
def push_trim (ms : List MqttMessage) (m : MqttMessage) : List MqttMessage :=
  let ms' := ms ++ [m]
  if ms'.length > 100 then ms'.tail else ms'

/-- Mirror of `TopicNode::insert_message(topic_parts, message)`
(src/mqtt/topic_tree.rs lines 28-55).  The count is bumped on every node the
walk visits, before the empty-parts check, exactly as in the source. -/
def TopicNode.insert_message : List String → MqttMessage → TopicNode → TopicNode
  | [], m, .mk n fp ch ms mc ex => .mk n fp ch (push_trim ms m) (mc + 1) ex
  | p :: rest, m, .mk n fp ch ms mc ex =>
    let child := (ch.lookup p).getD (TopicNode.new p (joinPath fp p))
    .mk n fp (ch.store p (TopicNode.insert_message rest m child)) ms (mc + 1) ex

/-- Rust `topic.split('/')` on a list of characters, accumulating the
current segment in reverse. -/
def splitSlashAux : List Char → List Char → List String
  | [], acc => [String.mk acc.reverse]
  | c :: cs, acc =>
    if c = '/' then String.mk acc.reverse :: splitSlashAux cs []
    else splitSlashAux cs (c :: acc)

/-- Mirror of Rust `topic.split('/').collect::<Vec<&str>>()`: splitting on
every slash, keeping empty segments (so `"" -> [""]` and `"/" -> ["", ""]`). -/
def splitSlash (s : String) : List String := splitSlashAux s.data []

/-- Mirror of `TopicTree` (src/mqtt/topic_tree.rs lines 78-83). -/
structure TopicTree where
  root : TopicNode
  total_messages : Nat
  total_topics : Nat

mutual

/-- Mirror of `TopicTree::count_topics`: 1 for each node with a non-empty
message buffer, summed over the whole subtree. -/
def count_topics : TopicNode → Nat
  | .mk _ _ ch ms _ _ => (if ms.isEmpty then 0 else 1) + count_topics_children ch

/-- Sum of `count_topics` over all children (`for child in node.children.values()`). -/
def count_topics_children : ChildMap → Nat
  | .nil => 0
  | .cons _ c rest => count_topics c + count_topics_children rest

end

/-- Mirror of `TopicTree::new()`. -/
def TopicTree.new : TopicTree :=
  { root := TopicNode.new "" "", total_messages := 0, total_topics := 0 }

/-- Mirror of `TopicTree::insert(message)`: split the topic on `/`, insert
along the path, bump `total_messages`, then recompute `total_topics` by a
full traversal (`recalculate_topic_count`). -/
def TopicTree.insert (tree : TopicTree) (message : MqttMessage) : TopicTree :=
  let parts := splitSlash message.topic
  let root' := TopicNode.insert_message parts message tree.root
  { root := root', total_messages := tree.total_messages + 1,
    total_topics := count_topics root' }

/-- Mirror of `TopicTree::get_node_recursive(node, parts)`. -/
def get_node_recursive : TopicNode → List String → Option TopicNode
  | node, [] => some node
  | node, p :: rest =>
    match node.children.lookup p with
    | some child => get_node_recursive child rest
    | none => none

/-- Mirror of `TopicTree::get_node(topic)`. -/
def TopicTree.get_node (tree : TopicTree) (topic : String) : Option TopicNode :=
  get_node_recursive tree.root (splitSlash topic)

/-- The observable state of a node used by the ring-buffer claims: its
stored messages and its cumulative message counter. -/
def node_stats (n : TopicNode) : List MqttMessage × Nat :=
  (n.messages, n.message_count)

/-- Messages and counter at a path, defaulting to `([], 0)` when the node
does not exist (a fresh node starts with no messages and counter 0). -/
def stats_at (node : TopicNode) (parts : List String) : List MqttMessage × Nat :=
  ((get_node_recursive node parts).map node_stats).getD ([], 0)

mutual

/-- Path strings (with duplicates) of the nodes that hold at least one
message, mirroring `TopicTree::collect_topics` which pushes `full_path`
for every node with non-empty `messages`. -/
def msg_paths : TopicNode → List String
  | .mk _ fp ch ms _ _ => (if ms.isEmpty then [] else [fp]) ++ msg_paths_children ch

/-- Concatenation of `msg_paths` over all children. -/
def msg_paths_children : ChildMap → List String
  | .nil => []
  | .cons _ c rest => msg_paths c ++ msg_paths_children rest

end

/-- Keep one copy of each string (used to count distinct full paths, the
quantity the `total_topics` claim talks about). -/
def dedupStr : List String → List String
  | [] => []
  | s :: tl => if tl.contains s then dedupStr tl else s :: dedupStr tl

mutual

/-- Decides the full-path invariant below a node: every child is stored
under its own `name`, its `full_path` is the parent's `full_path` joined
with that name (empty parent path yielding the bare name, as in
`joinPath`), recursively. -/
def path_ok : TopicNode → Bool
  | .mk _ fp ch _ _ _ => children_ok fp ch

/-- The full-path invariant for each entry of a children map, given the
parent's `full_path`. -/
def children_ok : String → ChildMap → Bool
  | _, .nil => true
  | parent, .cons k c rest =>
    (c.name == k) && (c.full_path == joinPath parent k) && path_ok c && children_ok parent rest

end

/-- Mirror of `TreeNodeInfo` (src/app/types.rs): the record yielded for
each visible node. -/
structure TreeNodeInfo where
  name : String
  full_path : String
  depth : Nat
  has_children : Bool
  has_messages : Bool
  message_count : Nat
  is_expanded : Bool
deriving DecidableEq, Repr

/-- Insert one entry into a key-sorted children map (ascending key order). -/
def insCM (key : String) (node : TopicNode) : ChildMap → ChildMap
  | .nil => .cons key node .nil
  | .cons k c rest =>
    if key < k then .cons key node (.cons k c rest) else .cons k c (insCM key node rest)

/-- Sort a children map by key, embedding
`children.sort_by(|a, b| a.0.cmp(b.0))` from `collect_tree_nodes_static`
(keys are unique, so any comparison sort yields the same sequence). -/
def sortCM : ChildMap → ChildMap
  | .nil => .nil
  | .cons k c rest => insCM k c (sortCM rest)

/-- The `TreeNodeInfo` built for one child entry in
`collect_tree_nodes_static` (src/app/views/topic_tree.rs lines 20-30). -/
def mkInfo (k : String) (c : TopicNode) (depth : Nat) : TreeNodeInfo :=
  { name := k, full_path := c.full_path, depth := depth,
    has_children := !(c.children.isNil), has_messages := !(c.messages.isEmpty),
    message_count := c.message_count, is_expanded := c.expanded }

theorem sizeOf_insCM (key : String) (node : TopicNode) : (cm : ChildMap) →
    sizeOf (insCM key node cm) = 1 + sizeOf key + sizeOf node + sizeOf cm
  | .nil => by simp [insCM]
  | .cons k c rest => by
    have ih := sizeOf_insCM key node rest
    by_cases h : key < k
    · simp [insCM, h]
    · simp [insCM, h, ih]; omega

theorem sizeOf_sortCM : (cm : ChildMap) → sizeOf (sortCM cm) = sizeOf cm
  | .nil => by simp [sortCM]
  | .cons k c rest => by simp [sortCM, sizeOf_insCM, sizeOf_sortCM rest]

theorem sizeOf_children_lt (node : TopicNode) : sizeOf node.children < sizeOf node := by
  cases node with
  | mk n fp ch ms mc ex => simp [TopicNode.children]; omega

mutual

/-- Mirror of `collect_tree_nodes_static(node, depth)`
(src/app/views/topic_tree.rs lines 13-39): sort children by key, yield an
info record per child, and recurse when `child.expanded && !child.children.is_empty()`. -/
def collect_tree_nodes_static (node : TopicNode) (depth : Nat) : List TreeNodeInfo :=
  collect_go (sortCM node.children) depth
termination_by 2 * sizeOf node + 1
decreasing_by
  simp_wf
  have h1 := sizeOf_sortCM node.children
  have h2 := sizeOf_children_lt node
  omega

/-- The body of the `for (name, child) in children` loop of
`collect_tree_nodes_static`, over the sorted children. -/
def collect_go : ChildMap → Nat → List TreeNodeInfo
  | .nil, _ => []
  | .cons k c rest, depth =>
    (mkInfo k c depth ::
      (if c.expanded && !(c.children.isNil) then collect_tree_nodes_static c (depth + 1) else []))
      ++ collect_go rest depth
termination_by cm _ => 2 * sizeOf cm
decreasing_by
  all_goals (simp_wf; try omega)

end

mutual

/-- Modelled from the spec: the `flatten_visible` sequence as the spec
describes it — a pre-order walk of the yielded nodes in lexicographic
child-key order that descends into a node's children exactly when that
node's `expanded` flag is set.  Refinement target compared with
`collect_tree_nodes_static`. -/
def flatten_visible (node : TopicNode) (depth : Nat) : List TreeNodeInfo :=
  flatten_go (sortCM node.children) depth
termination_by 2 * sizeOf node + 1
decreasing_by
  simp_wf
  have h1 := sizeOf_sortCM node.children
  have h2 := sizeOf_children_lt node
  omega

/-- The per-child step of `flatten_visible`: yield the info record and
descend exactly when the child's `expanded` flag is set. -/
def flatten_go : ChildMap → Nat → List TreeNodeInfo
  | .nil, _ => []
  | .cons k c rest, depth =>
    (mkInfo k c depth :: (if c.expanded then flatten_visible c (depth + 1) else []))
      ++ flatten_go rest depth
termination_by cm _ => 2 * sizeOf cm
decreasing_by
  all_goals (simp_wf; try omega)

end

/-- Mirror of `ConnectionStatus` (src/mqtt/message.rs lines 54-60). -/
inductive ConnectionStatus : Type where
  | disconnected : ConnectionStatus
  | connecting : ConnectionStatus
  | connected : ConnectionStatus
  | error (message : String) : ConnectionStatus
deriving DecidableEq, Repr

/-- Mirror of `MqttEvent` (src/app/types.rs lines 44-50). -/
inductive MqttEvent : Type where
  | connected : MqttEvent
  | disconnected : MqttEvent
  | message (msg : MqttMessage) : MqttEvent
  | error (message : String) : MqttEvent
deriving DecidableEq, Repr

/-- True exactly on the `Message` variant. -/
def MqttEvent.isMessageEvent : MqttEvent → Bool
  | .message _ => true
  | _ => false

/-- The per-connection foreground state that `MqttUi::poll_connections`
reads or writes for one connection: the connection's status, its topic
tree, the selected topic and message, and that connection's entry of the
`tree_cache_dirty` map (src/app/mod.rs). -/
structure PollState where
  status : ConnectionStatus
  tree : TopicTree
  selected_topic : Option String
  selected_message : Option MqttMessage
  tree_cache_dirty : Bool

/-- Mirror of `MAX_MESSAGES_PER_TICK` in `MqttUi::poll_connections`. -/
def MAX_MESSAGES_PER_TICK : Nat := 50

/-- Mirror of the `while let Ok(event) = rx.try_recv()` drain loop of
`MqttUi::poll_connections` (src/app/mod.rs lines 592-632) for one
connection.  The channel is the event queue list; the result is the
updated foreground state, the list of events taken from the channel in
this invocation, and the events still queued.  `msg_count` starts at 0 and
is incremented only for `Message` events; after processing a message the
loop stops when `msg_count >= MAX_MESSAGES_PER_TICK`.  Exactly as in the
source, the drain updates `status` for `Connected`/`Disconnected`/`Error`,
and for `Message` updates the selected message (when the message's topic
is the selected one) and inserts into the topic tree; it never touches
`tree_cache_dirty`. -/
def poll_drain_events : Nat → PollState → List MqttEvent → PollState × List MqttEvent × List MqttEvent
  | _, s, [] => (s, [], [])
  | msg_count, s, MqttEvent.connected :: rest =>
    let r := poll_drain_events msg_count { s with status := .connected } rest
    (r.1, MqttEvent.connected :: r.2.1, r.2.2)
  | msg_count, s, MqttEvent.disconnected :: rest =>
    let r := poll_drain_events msg_count { s with status := .disconnected } rest
    (r.1, MqttEvent.disconnected :: r.2.1, r.2.2)
  | msg_count, s, MqttEvent.error e :: rest =>
    let r := poll_drain_events msg_count { s with status := .error e } rest
    (r.1, MqttEvent.error e :: r.2.1, r.2.2)
  | msg_count, s, MqttEvent.message m :: rest =>
    let msg_count' := msg_count + 1
    let s' := { s with
      selected_message :=
        if s.selected_topic = some m.topic then some m else s.selected_message,
      tree := s.tree.insert m }
    if msg_count' ≥ MAX_MESSAGES_PER_TICK then (s', [MqttEvent.message m], rest)
    else
      let r := poll_drain_events msg_count' s' rest
      (r.1, MqttEvent.message m :: r.2.1, r.2.2)

/-- One invocation of the drain for one connection (`msg_count` starts at 0). -/
def poll_connection (s : PollState) (queue : List MqttEvent) :
    PollState × List MqttEvent × List MqttEvent :=
  poll_drain_events 0 s queue

/-- Rust `u8::to_ascii_lowercase` on a character. -/
def to_ascii_lower (c : Char) : Char :=
  if 'A' ≤ c && c ≤ 'Z' then Char.ofNat (c.toNat + 32) else c

/-- Mirror of `str::eq_ignore_ascii_case`. -/
def eq_ignore_ascii_case (a b : String) : Bool :=
  a.data.map to_ascii_lower == b.data.map to_ascii_lower

/-- Mirror of the `hosts_to_try` computation in `run_mqtt_worker`
(src/app/mqtt_worker.rs lines 22-27). -/
def hosts_to_try (host : String) : List String :=
  if eq_ignore_ascii_case host "localhost" then ["localhost", "127.0.0.1"]
  else [host]

/-- Outcome of one connection attempt against one candidate host, i.e.
what `connection.iter().next()` yields: a first event (usable session), a
connect error, or an immediately closed stream. -/
inductive AttemptResult : Type where
  | ok : AttemptResult
  | connErr (e : String) : AttemptResult
  | closed : AttemptResult

/-- True exactly when the attempt yielded a usable session. -/
def AttemptResult.isOk : AttemptResult → Bool
  | .ok => true
  | _ => false

/-- Mirror of the `for host in &hosts_to_try` loop of `run_mqtt_worker`
(lines 32-61): attempt candidates in order, break on the first usable
session, remember the last error string otherwise.  Returns the winning
host (if any) and the final `last_error`. -/
def connect_loop (f : String → AttemptResult) : List String → Option String → Option String × Option String
  | [], last_error => (none, last_error)
  | h :: rest, last_error =>
    match f h with
    | .ok => (some h, last_error)
    | .connErr e => connect_loop f rest (some e)
    | .closed => connect_loop f rest (some "Connection closed")

/-- The hosts the loop actually attempts, in order (it stops right after
the first successful candidate). -/
def attempted_hosts (f : String → AttemptResult) : List String → List String
  | [] => []
  | h :: rest => h :: (if (f h).isOk then [] else attempted_hosts f rest)

/-- Mirror of the connect phase of `run_mqtt_worker` (lines 22-71): run the
candidate loop; on success emit nothing and hand the session on, on
failure of every candidate emit a single `Error` event carrying
`last_error.unwrap_or("Failed to connect")` and return (no retry). -/
def run_connect_phase (host : String) (f : String → AttemptResult) :
    List MqttEvent × Option String :=
  match connect_loop f (hosts_to_try host) none with
  | (some h, _) => ([], some h)
  | (none, last_error) => ([MqttEvent.error (last_error.getD "Failed to connect")], none)

/-- Delivery-guarantee levels of the broker client library (`rumqttc::QoS`). -/
inductive QoS : Type where
  | atMostOnce : QoS
  | atLeastOnce : QoS
  | exactlyOnce : QoS
deriving DecidableEq, Repr

/-- Mirror of `Subscription` (src/config/connection.rs lines 63-67); the
`u8` QoS byte is a `Nat`. -/
structure Subscription where
  topic : String
  qos : Nat
deriving DecidableEq, Repr

/-- The QoS mapping of the subscribe loop in `run_mqtt_worker`
(lines 81-85): `0 => AtMostOnce, 1 => AtLeastOnce, _ => ExactlyOnce`. -/
def subscribe_qos : Nat → QoS
  | 0 => .atMostOnce
  | 1 => .atLeastOnce
  | _ => .exactlyOnce

/-- The QoS mapping of the publish command arm in `run_mqtt_worker`
(lines 104-108), textually the same match as the subscribe one. -/
def publish_qos : Nat → QoS
  | 0 => .atMostOnce
  | 1 => .atLeastOnce
  | _ => .exactlyOnce

/-- The subscriptions the command relay issues right after the settling
delay (src/app/mqtt_worker.rs lines 80-94): every configured subscription
with its mapped QoS, then the `"#"` wildcard at `AtMostOnce` only when the
configured list is empty. -/
def initial_subscribes (subs : List Subscription) : List (String × QoS) :=
  subs.map (fun s => (s.topic, subscribe_qos s.qos)) ++
    (if subs.isEmpty then [("#", QoS.atMostOnce)] else [])

/-- A concrete message on topic `"a"` (witness input). -/
def mA : MqttMessage :=
  { topic := "a", payload := [], qos := 0, retain := false, timestamp := 0 }

/-- A concrete message on topic `"a/b"` (counterexample input). -/
def mAB : MqttMessage :=
  { topic := "a/b", payload := [], qos := 0, retain := false, timestamp := 0 }

/-- A concrete message on the empty topic `""` (counterexample input). -/
def mEmptyTopic : MqttMessage :=
  { topic := "", payload := [], qos := 0, retain := false, timestamp := 0 }

/-- A concrete message on topic `"/"` (counterexample input). -/
def mSlashTopic : MqttMessage :=
  { topic := "/", payload := [], qos := 0, retain := false, timestamp := 0 }

/-- The tree after inserting one message on `"a/b"` (counterexample input). -/
def tree_ab : TopicTree := TopicTree.insert TopicTree.new mAB

/-- The tree after inserting one message on topic `""` and one on topic
`"/"` (counterexample input for the distinct-full-paths claim). -/
def tree_empty_slash : TopicTree :=
  TopicTree.insert (TopicTree.insert TopicTree.new mEmptyTopic) mSlashTopic

/-- A fresh foreground state for one connection (fresh tree, nothing
selected, cache not dirty). -/
def init_poll_state : PollState :=
  { status := .connecting, tree := TopicTree.new, selected_topic := none,
    selected_message := none, tree_cache_dirty := false }

/-- One ring-buffer step on the observable state of a node: push the
message (evicting the oldest past 100) and bump the counter. -/
def msg_step (s : List MqttMessage × Nat) (m : MqttMessage) : List MqttMessage × Nat :=
  (push_trim s.1 m, s.2 + 1)

theorem lookup_store_self (p : String) (c' : TopicNode) :
    (ch : ChildMap) → (ch.store p c').lookup p = some c'
  | .nil => by simp [ChildMap.store, ChildMap.lookup]
  | .cons k old rest => by
    by_cases h : k = p
    · simp [ChildMap.store, h, ChildMap.lookup]
    · simp [ChildMap.store, h, ChildMap.lookup, lookup_store_self p c' rest]

theorem stats_at_new (a b : String) : (parts : List String) →
    stats_at (TopicNode.new a b) parts = ([], 0)
  | [] => by
    simp [stats_at, get_node_recursive, TopicNode.new, node_stats,
      TopicNode.messages, TopicNode.message_count]
  | p :: rest => by
    simp [stats_at, get_node_recursive, TopicNode.new, TopicNode.children, ChildMap.lookup]

theorem stats_insert : (pre : List String) → ∀ (suf : List String) (m : MqttMessage)
    (node : TopicNode),
    (get_node_recursive (TopicNode.insert_message (pre ++ suf) m node) pre).map node_stats =
      some (if suf.isEmpty then push_trim (stats_at node pre).1 m else (stats_at node pre).1,
            (stats_at node pre).2 + 1)
  | [] => by
    intro suf m node
    cases node with
    | mk n fp ch ms mc ex =>
      cases suf with
      | nil =>
        simp [TopicNode.insert_message, get_node_recursive, node_stats, stats_at,
          TopicNode.messages, TopicNode.message_count]
      | cons p rest =>
        simp [TopicNode.insert_message, get_node_recursive, node_stats, stats_at,
          TopicNode.messages, TopicNode.message_count]
  | p :: pre' => by
    intro suf m node
    cases node with
    | mk n fp ch ms mc ex =>
      have ih := stats_insert pre'
      simp only [List.cons_append, TopicNode.insert_message]
      simp only [get_node_recursive, TopicNode.children, lookup_store_self]
      cases hl : ch.lookup p with
      | some child =>
        simp only [List.append_eq, Option.getD_some]
        rw [ih suf m child]
        simp only [stats_at, get_node_recursive, TopicNode.children, hl]
      | none =>
        simp only [List.append_eq, Option.getD_none]
        rw [ih suf m (TopicNode.new p (joinPath fp p))]
        rw [stats_at_new]
        simp only [stats_at, get_node_recursive, TopicNode.children, hl]
        simp

theorem drop_append_le {α : Type} (l₂ : List α) (n : Nat) :
    (l₁ : List α) → n ≤ l₁.length → (l₁ ++ l₂).drop n = l₁.drop n ++ l₂
  | l₁, h => by
    rw [List.drop_append_eq_append_drop]
    have : n - l₁.length = 0 := by omega
    rw [this, List.drop_zero]

theorem push_trim_drop (pre : List MqttMessage) (m : MqttMessage) :
    push_trim (pre.drop (pre.length - 100)) m = (pre ++ [m]).drop (pre.length + 1 - 100) := by
  by_cases h : pre.length < 100
  · have h0 : pre.length - 100 = 0 := by omega
    have h1 : pre.length + 1 - 100 = 0 := by omega
    have h2 : ¬ (pre.length + 1 > 100) := by omega
    rw [h0, h1, List.drop_zero, List.drop_zero]
    simp [push_trim, h2]
  · have hd : (pre.drop (pre.length - 100)).length = 100 := by
      rw [List.length_drop]; omega
    have h2 : (pre.drop (pre.length - 100) ++ [m]).length > 100 := by
      simp [hd]
    have hne : pre.drop (pre.length - 100) ≠ [] := by
      intro hnil; rw [hnil] at hd; simp at hd
    simp only [push_trim, h2, if_pos]
    rw [List.tail_append_of_ne_nil hne, List.tail_drop]
    rw [drop_append_le [m] (pre.length + 1 - 100) pre (by omega)]
    have : pre.length + 1 - 100 = pre.length - 100 + 1 := by omega
    rw [this]

theorem foldl_msg_step : (msgs : List MqttMessage) → ∀ (pre : List MqttMessage),
    List.foldl msg_step (pre.drop (pre.length - 100), pre.length) msgs =
      ((pre ++ msgs).drop ((pre ++ msgs).length - 100), (pre ++ msgs).length)
  | [] => by intro pre; simp
  | m :: rest => by
    intro pre
    rw [List.foldl_cons]
    have hstep : msg_step (pre.drop (pre.length - 100), pre.length) m =
        ((pre ++ [m]).drop ((pre ++ [m]).length - 100), (pre ++ [m]).length) := by
      simp only [msg_step, push_trim_drop, List.length_append, List.length_cons,
        List.length_nil]
    rw [hstep, foldl_msg_step rest (pre ++ [m])]
    simp

theorem foldl_msg_step_nil (msgs : List MqttMessage) :
    List.foldl msg_step ([], 0) msgs = (msgs.drop (msgs.length - 100), msgs.length) := by
  have h := foldl_msg_step msgs []
  simpa using h

theorem fold_insert_stats (t : String) : (msgs : List MqttMessage) → ∀ (tree : TopicTree),
    msgs ≠ [] → (∀ m ∈ msgs, m.topic = t) →
    (get_node_recursive (List.foldl TopicTree.insert tree msgs).root (splitSlash t)).map node_stats =
      some (List.foldl msg_step (stats_at tree.root (splitSlash t)) msgs)
  | [], _ => by intro h _; exact absurd rfl h
  | m :: rest, tree => by
    intro _ htop
    have hm : m.topic = t := htop m (List.mem_cons_self m rest)
    have hins : (TopicTree.insert tree m).root =
        TopicNode.insert_message (splitSlash t ++ []) m tree.root := by
      simp [TopicTree.insert, hm]
    have hstat : (get_node_recursive (TopicTree.insert tree m).root (splitSlash t)).map node_stats =
        some (msg_step (stats_at tree.root (splitSlash t)) m) := by
      rw [hins, stats_insert (splitSlash t) [] m tree.root]
      simp [msg_step]
    cases rest with
    | nil =>
      simpa using hstat
    | cons m' rest' =>
      rw [List.foldl_cons, List.foldl_cons]
      have ih := fold_insert_stats t (m' :: rest') (TopicTree.insert tree m)
        (by simp) (fun x hx => htop x (List.mem_cons_of_mem m hx))
      rw [List.foldl_cons] at ih
      rw [ih]
      have : stats_at (TopicTree.insert tree m).root (splitSlash t) =
          msg_step (stats_at tree.root (splitSlash t)) m := by
        simp [stats_at, hstat]
      rw [this]
      simp [List.foldl_cons]

/-- C1: starting from a fresh tree, any 101 inserts of messages all published
on topic `t` leave the node for `t` holding exactly the last 100 of those
messages in arrival order (the first, oldest one evicted), with that node's
`message_count` equal to 101. -/
theorem ring_buffer_last100_c1 (t : String) (msgs : List MqttMessage)
    (hlen : msgs.length = 101) (htop : ∀ m ∈ msgs, m.topic = t) :
    ((List.foldl TopicTree.insert TopicTree.new msgs).get_node t).map node_stats =
      some (msgs.drop 1, 101) := by
  have hne : msgs ≠ [] := by intro h; rw [h] at hlen; simp at hlen
  have h1 := fold_insert_stats t msgs TopicTree.new hne htop
  have h2 : stats_at TopicTree.new.root (splitSlash t) = ([], 0) := by
    have : TopicTree.new.root = TopicNode.new "" "" := rfl
    rw [this, stats_at_new]
  rw [TopicTree.get_node, h1, h2, foldl_msg_step_nil, hlen]

/-- Witness for C1 at a concrete input: 101 copies of a message on topic
`"a"` inserted into a fresh tree. -/
theorem ring_buffer_last100_c1_witness :
    ((List.foldl TopicTree.insert TopicTree.new (List.replicate 101 mA)).get_node "a").map
        node_stats = some (List.replicate 100 mA, 101) := by
  have h := ring_buffer_last100_c1 "a" (List.replicate 101 mA) (by simp)
    (by intro m hm; rw [List.eq_of_mem_replicate hm]; rfl)
  simpa using h

/-- Counterexample to C2: inserting a second message on `"a/b"` changes the
`message_count` of the non-terminal node `"a"` on the walked path (from 1
to 2), so the claim that only the terminal node's counter is incremented is
false on the code. -/
theorem message_count_terminal_only_c2_cex :
    ¬ ((get_node_recursive (TopicTree.insert tree_ab mAB).root ["a"]).map
          TopicNode.message_count =
        (get_node_recursive tree_ab.root ["a"]).map TopicNode.message_count) := by
  decide

/-- C2 amended: a `TopicTree::insert` of a message whose topic walks the
path `pre ++ suf` increments `message_count` by one on every node of the
walked path, the node at any prefix `pre` included (the source bumps the
counter on each visited node before the terminal check, so root,
intermediate and terminal counters all grow by one). -/
theorem message_count_every_path_node_c2 (tree : TopicTree) (m : MqttMessage)
    (pre suf : List String) (hsplit : splitSlash m.topic = pre ++ suf) :
    (get_node_recursive (tree.insert m).root pre).map TopicNode.message_count =
      some ((stats_at tree.root pre).2 + 1) := by
  have hins : (tree.insert m).root = TopicNode.insert_message (pre ++ suf) m tree.root := by
    simp [TopicTree.insert, hsplit]
  have h := stats_insert pre suf m tree.root
  rw [hins]
  cases hg : get_node_recursive (TopicNode.insert_message (pre ++ suf) m tree.root) pre with
  | none =>
    rw [hg] at h
    simp only [Option.map_none'] at h
    exact Option.noConfusion h
  | some n =>
    rw [hg] at h
    simp only [Option.map_some', Option.some.injEq] at h
    simp only [Option.map_some', Option.some.injEq]
    have := congrArg Prod.snd h
    simpa [node_stats] using this

/-- Witness for C2 at a concrete input: inserting one message on `"a/b"`
into a fresh tree gives the intermediate node `"a"` counter 1 (0 + 1). -/
theorem message_count_every_path_node_c2_witness :
    (get_node_recursive (TopicTree.insert TopicTree.new mAB).root ["a"]).map
        TopicNode.message_count = some 1 := by
  have h := message_count_every_path_node_c2 TopicTree.new mAB ["a"] ["b"] (by decide)
  have h2 : (stats_at TopicTree.new.root ["a"]).2 = 0 := by decide
  rw [h2] at h
  exact h

theorem fold_total_topics (msgs : List MqttMessage) : ∀ (tree : TopicTree),
    tree.total_topics = count_topics tree.root →
    (List.foldl TopicTree.insert tree msgs).total_topics =
      count_topics (List.foldl TopicTree.insert tree msgs).root := by
  induction msgs with
  | nil => intro tree h; simpa using h
  | cons m rest ih =>
    intro tree _
    rw [List.foldl_cons]
    exact ih (tree.insert m) rfl

/-- Counterexample to C3: after inserting one message on topic `""` and one
on topic `"/"`, two distinct nodes hold messages but share the full-path
string `""`; `total_topics` is 2 while the number of distinct full paths of
message-holding nodes is 1. -/
theorem total_topics_distinct_paths_c3_cex :
    ¬ (tree_empty_slash.total_topics =
        (dedupStr (msg_paths tree_empty_slash.root)).length) := by
  decide

/-- C3 amended: after any sequence of inserts starting from a fresh tree,
`total_topics` equals the number of tree nodes holding at least one stored
message (`count_topics`).  When topics contain empty segments, distinct
nodes can share one full-path string, so this node count can exceed the
number of distinct full-path strings — the original distinct-paths phrasing
fails (see the counterexample). -/
theorem total_topics_node_count_c3 (msgs : List MqttMessage) :
    (List.foldl TopicTree.insert TopicTree.new msgs).total_topics =
      count_topics (List.foldl TopicTree.insert TopicTree.new msgs).root :=
  fold_total_topics msgs TopicTree.new rfl

theorem insert_message_shell (parts : List String) (m : MqttMessage) (node : TopicNode) :
    (TopicNode.insert_message parts m node).name = node.name ∧
    (TopicNode.insert_message parts m node).full_path = node.full_path := by
  cases parts <;> cases node <;>
    simp [TopicNode.insert_message, TopicNode.name, TopicNode.full_path]

theorem lookup_children_ok (parent p : String) (c : TopicNode) : (ch : ChildMap) →
    children_ok parent ch = true → ch.lookup p = some c →
    c.name = p ∧ c.full_path = joinPath parent p ∧ path_ok c = true
  | .nil => by simp [ChildMap.lookup]
  | .cons k c0 rest => by
    intro hok hl
    simp only [children_ok, Bool.and_eq_true, beq_iff_eq] at hok
    obtain ⟨⟨⟨hn, hf⟩, hp⟩, hrest⟩ := hok
    simp only [ChildMap.lookup] at hl
    by_cases hk : k = p
    · subst hk
      have hc : c0 = c := by simpa using hl
      subst hc
      exact ⟨hn, hf, hp⟩
    · rw [if_neg hk] at hl
      exact lookup_children_ok parent p c rest hrest hl

theorem store_children_ok (parent p : String) (c' : TopicNode)
    (hn : c'.name = p) (hf : c'.full_path = joinPath parent p) (hp : path_ok c' = true) :
    (ch : ChildMap) → children_ok parent ch = true →
    children_ok parent (ch.store p c') = true
  | .nil => by
    intro _
    simp [ChildMap.store, children_ok, hn, hf, hp]
  | .cons k old rest => by
    intro hok
    simp only [children_ok, Bool.and_eq_true, beq_iff_eq] at hok
    obtain ⟨⟨⟨hn0, hf0⟩, hp0⟩, hrest⟩ := hok
    by_cases hk : k = p
    · simp [ChildMap.store, hk, children_ok, hn, hf, hp, hrest]
    · simp [ChildMap.store, hk, children_ok, hn0, hf0, hp0,
        store_children_ok parent p c' hn hf hp rest hrest]

theorem insert_path_ok : (parts : List String) → ∀ (m : MqttMessage) (node : TopicNode),
    path_ok node = true → path_ok (TopicNode.insert_message parts m node) = true
  | [] => by
    intro m node h
    cases node with
    | mk n fp ch ms mc ex => simpa [TopicNode.insert_message, path_ok] using h
  | p :: rest => by
    intro m node h
    cases node with
    | mk n fp ch ms mc ex =>
      simp only [path_ok] at h
      simp only [TopicNode.insert_message, path_ok]
      cases hl : ch.lookup p with
      | some child =>
        simp only [Option.getD_some]
        have hc := lookup_children_ok fp p child ch h hl
        have hip := insert_path_ok rest m child hc.2.2
        have hshell := insert_message_shell rest m child
        exact store_children_ok fp p _ (hshell.1.trans hc.1) (hshell.2.trans hc.2.1) hip ch h
      | none =>
        simp only [Option.getD_none]
        have hnew_ok : path_ok (TopicNode.new p (joinPath fp p)) = true := by
          simp [TopicNode.new, path_ok, children_ok]
        have hip := insert_path_ok rest m (TopicNode.new p (joinPath fp p)) hnew_ok
        have hshell := insert_message_shell rest m (TopicNode.new p (joinPath fp p))
        refine store_children_ok fp p _ ?_ ?_ hip ch h
        · rw [hshell.1]; rfl
        · rw [hshell.2]; rfl

theorem fold_path_ok (msgs : List MqttMessage) : ∀ (tree : TopicTree),
    tree.root.full_path = "" → path_ok tree.root = true →
    (List.foldl TopicTree.insert tree msgs).root.full_path = "" ∧
    path_ok (List.foldl TopicTree.insert tree msgs).root = true := by
  induction msgs with
  | nil => intro tree h1 h2; exact ⟨h1, h2⟩
  | cons m rest ih =>
    intro tree h1 h2
    rw [List.foldl_cons]
    have hroot : (tree.insert m).root =
        TopicNode.insert_message (splitSlash m.topic) m tree.root := rfl
    have hshell := insert_message_shell (splitSlash m.topic) m tree.root
    exact ih (tree.insert m) (by rw [hroot, hshell.2, h1])
      (by rw [hroot]; exact insert_path_ok (splitSlash m.topic) m tree.root h2)

/-- C4: in every tree reachable by inserts from a fresh tree (arbitrary
topics, empty segments included), the root's `full_path` is the empty
string and every child is stored under its own `name` with `full_path`
equal to its parent's `full_path` joined with that name by `/` (`joinPath`,
where joining an empty parent path yields the bare name — the code's and
spec's convention, under which a top-level node's full path is its name). -/
theorem full_path_invariant_c4 (msgs : List MqttMessage) :
    (List.foldl TopicTree.insert TopicTree.new msgs).root.full_path = "" ∧
    path_ok (List.foldl TopicTree.insert TopicTree.new msgs).root = true :=
  fold_path_ok msgs TopicTree.new rfl (by decide)

theorem isNil_eq_nil (ch : ChildMap) (h : ch.isNil = true) : ch = ChildMap.nil := by
  cases ch with
  | nil => rfl
  | cons k c rest => simp [ChildMap.isNil] at h

theorem flatten_visible_of_nil (node : TopicNode) (depth : Nat)
    (h : (node.children).isNil = true) : flatten_visible node depth = [] := by
  have hch : node.children = ChildMap.nil := isNil_eq_nil _ h
  simp [flatten_visible, hch, sortCM, flatten_go]

theorem collect_go_eq_flatten_go : (cm : ChildMap) → ∀ (depth : Nat),
    (∀ (c : TopicNode) (d : Nat), sizeOf c < sizeOf cm →
      collect_tree_nodes_static c d = flatten_visible c d) →
    collect_go cm depth = flatten_go cm depth
  | .nil => by intro depth _; simp [collect_go, flatten_go]
  | .cons k c rest => by
    intro depth hIH
    have hc : sizeOf c < sizeOf (ChildMap.cons k c rest) := by
      simp only [ChildMap.cons.sizeOf_spec]; omega
    have hrest : ∀ (c' : TopicNode) (d : Nat), sizeOf c' < sizeOf rest →
        collect_tree_nodes_static c' d = flatten_visible c' d := by
      intro c' d h
      exact hIH c' d (by simp only [ChildMap.cons.sizeOf_spec]; omega)
    simp only [collect_go, flatten_go]
    rw [collect_go_eq_flatten_go rest depth hrest]
    congr 1
    congr 1
    by_cases he : c.expanded
    · by_cases hn : (c.children).isNil
      · simp [he, hn, flatten_visible_of_nil c (depth + 1) hn]
      · simp [he, hn, hIH c (depth + 1) hc]
    · simp [he]

theorem collect_eq_flatten_aux : (N : Nat) → ∀ (node : TopicNode) (depth : Nat),
    sizeOf node ≤ N → collect_tree_nodes_static node depth = flatten_visible node depth
  | 0 => by
    intro node depth h
    exfalso
    cases node with
    | mk n fp ch ms mc ex =>
      simp only [TopicNode.mk.sizeOf_spec] at h
      omega
  | N + 1 => by
    intro node depth h
    simp only [collect_tree_nodes_static, flatten_visible]
    apply collect_go_eq_flatten_go
    intro c d hc
    apply collect_eq_flatten_aux N
    have h1 := sizeOf_sortCM node.children
    have h2 := sizeOf_children_lt node
    omega

/-- C8: the view's `collect_tree_nodes_static` is exactly the spec's
`flatten_visible` sequence — a pre-order walk over the key-sorted children
that yields, for each visited node, the record of its name, full path,
depth, has-children and has-messages flags and its message counter, and
descends into a visited node's children exactly when that node's
`expanded` flag is set (the code's extra non-empty-children test is
redundant: an expanded childless node contributes no entries either way). -/
theorem flatten_visible_c8 (node : TopicNode) (depth : Nat) :
    collect_tree_nodes_static node depth = flatten_visible node depth :=
  collect_eq_flatten_aux (sizeOf node) node depth le_rfl

theorem drain_message_cap_aux : (queue : List MqttEvent) → ∀ (mc : Nat) (s : PollState),
    mc < MAX_MESSAGES_PER_TICK →
    ((poll_drain_events mc s queue).2.1.countP MqttEvent.isMessageEvent) ≤
      MAX_MESSAGES_PER_TICK - mc
  | [] => by intro mc s _; simp [poll_drain_events]
  | MqttEvent.connected :: rest => by
    intro mc s h
    have ih := drain_message_cap_aux rest mc { s with status := .connected } h
    simpa [poll_drain_events, List.countP_cons, MqttEvent.isMessageEvent] using ih
  | MqttEvent.disconnected :: rest => by
    intro mc s h
    have ih := drain_message_cap_aux rest mc { s with status := .disconnected } h
    simpa [poll_drain_events, List.countP_cons, MqttEvent.isMessageEvent] using ih
  | MqttEvent.error e :: rest => by
    intro mc s h
    have ih := drain_message_cap_aux rest mc { s with status := .error e } h
    simpa [poll_drain_events, List.countP_cons, MqttEvent.isMessageEvent] using ih
  | MqttEvent.message m :: rest => by
    intro mc s h
    simp only [poll_drain_events]
    by_cases hc : mc + 1 ≥ MAX_MESSAGES_PER_TICK
    · rw [if_pos hc]
      simp [List.countP_cons, MqttEvent.isMessageEvent, MAX_MESSAGES_PER_TICK] at h ⊢
      omega
    · rw [if_neg hc]
      have hlt : mc + 1 < MAX_MESSAGES_PER_TICK := by omega
      have ih := drain_message_cap_aux rest (mc + 1)
        { s with
          selected_message :=
            if s.selected_topic = some m.topic then some m else s.selected_message,
          tree := s.tree.insert m } hlt
      simp [List.countP_cons, MqttEvent.isMessageEvent, MAX_MESSAGES_PER_TICK] at ih h ⊢
      omega

/-- Counterexample to C5: a queue of 51 `Connected` events is drained whole
in one invocation — the cap of 50 does not bound the number of events
taken, because only `Message` events count toward it. -/
theorem drain_cap_c5_cex :
    ¬ ((poll_connection init_poll_state (List.replicate 51 MqttEvent.connected)).2.1.length ≤ 50) := by
  decide

/-- C5 amended: in one invocation of the drain for one connection, at most
the per-tick cap of 50 `Message` events is taken from the event channel;
events of other variants (`Connected`, `Disconnected`, `Error`) do not
count toward the cap and can all be drained in the same invocation. -/
theorem drain_message_cap_c5 (queue : List MqttEvent) (s : PollState) :
    ((poll_connection s queue).2.1.countP MqttEvent.isMessageEvent) ≤
      MAX_MESSAGES_PER_TICK := by
  have h := drain_message_cap_aux queue 0 s (by simp [MAX_MESSAGES_PER_TICK])
  simpa [poll_connection] using h

theorem drain_dirty_frame_aux : (queue : List MqttEvent) → ∀ (mc : Nat) (s : PollState),
    (poll_drain_events mc s queue).1.tree_cache_dirty = s.tree_cache_dirty
  | [] => by intro mc s; rfl
  | MqttEvent.connected :: rest => by
    intro mc s
    exact drain_dirty_frame_aux rest mc { s with status := .connected }
  | MqttEvent.disconnected :: rest => by
    intro mc s
    exact drain_dirty_frame_aux rest mc { s with status := .disconnected }
  | MqttEvent.error e :: rest => by
    intro mc s
    exact drain_dirty_frame_aux rest mc { s with status := .error e }
  | MqttEvent.message m :: rest => by
    intro mc s
    simp only [poll_drain_events]
    by_cases hc : mc + 1 ≥ MAX_MESSAGES_PER_TICK
    · rw [if_pos hc]
    · rw [if_neg hc]
      exact drain_dirty_frame_aux rest (mc + 1)
        { s with
          selected_message :=
            if s.selected_topic = some m.topic then some m else s.selected_message,
          tree := s.tree.insert m }

/-- C6: the drain loop of `poll_connections` never writes the render-cache
dirty flag — it is unchanged by every drain (first conjunct), and at the
concrete failing input (one drained `Message` on topic `"a"`, flag
initially false) the message is routed into the topic tree yet the flag
stays false, contradicting the claim that the drain step sets it. -/
theorem drain_dirty_c6 :
    (∀ (queue : List MqttEvent) (s : PollState),
      (poll_connection s queue).1.tree_cache_dirty = s.tree_cache_dirty) ∧
    (poll_connection init_poll_state [MqttEvent.message mA]).1.tree.total_messages = 1 ∧
    (poll_connection init_poll_state [MqttEvent.message mA]).1.tree_cache_dirty = false := by
  refine ⟨fun queue s => drain_dirty_frame_aux queue 0 s, by decide, by decide⟩

theorem connect_loop_find (f : String → AttemptResult) : (hs : List String) →
    ∀ (le : Option String), (connect_loop f hs le).1 = hs.find? (fun h => (f h).isOk)
  | [] => by intro le; simp [connect_loop]
  | h :: rest => by
    intro le
    simp only [connect_loop, List.find?]
    cases hf : f h with
    | ok => simp [AttemptResult.isOk]
    | connErr e => simp [AttemptResult.isOk, connect_loop_find f rest (some e)]
    | closed => simp [AttemptResult.isOk, connect_loop_find f rest (some "Connection closed")]

theorem attempted_hosts_eq (f : String → AttemptResult) : (hs : List String) →
    attempted_hosts f hs =
      hs.takeWhile (fun h => !(f h).isOk) ++
        (hs.dropWhile (fun h => !(f h).isOk)).take 1
  | [] => by simp [attempted_hosts]
  | h :: rest => by
    simp only [attempted_hosts]
    cases hok : (f h).isOk with
    | true =>
      rw [List.takeWhile_cons, List.dropWhile_cons]
      simp [hok]
    | false =>
      rw [List.takeWhile_cons, List.dropWhile_cons]
      simp [hok, attempted_hosts_eq f rest]

/-- C7: the worker's connect phase — when the configured host equals
`"localhost"` ASCII-case-insensitively the candidate list is
`["localhost", "127.0.0.1"]`, otherwise it is just the configured host; the
loop attempts candidates in order and stops at the first one yielding a
usable session (the attempted list is the failing prefix plus the first
success, and the session host is the first succeeding candidate); and when
every candidate fails the phase emits exactly one `Error` event and
returns no session (the worker exits, no retry). -/
theorem connect_fallback_c7 (host : String) (f : String → AttemptResult) :
    (eq_ignore_ascii_case host "localhost" = true →
      hosts_to_try host = ["localhost", "127.0.0.1"]) ∧
    (eq_ignore_ascii_case host "localhost" = false → hosts_to_try host = [host]) ∧
    (attempted_hosts f (hosts_to_try host) =
      (hosts_to_try host).takeWhile (fun h => !(f h).isOk) ++
        ((hosts_to_try host).dropWhile (fun h => !(f h).isOk)).take 1) ∧
    ((connect_loop f (hosts_to_try host) none).1 =
      (hosts_to_try host).find? (fun h => (f h).isOk)) ∧
    ((∀ h ∈ hosts_to_try host, (f h).isOk = false) →
      ∃ e, run_connect_phase host f = ([MqttEvent.error e], none)) := by
  refine ⟨?_, ?_, attempted_hosts_eq f _, connect_loop_find f _ none, ?_⟩
  · intro h; simp [hosts_to_try, h]
  · intro h; simp [hosts_to_try, h]
  · intro hall
    have hfind : (hosts_to_try host).find? (fun h => (f h).isOk) = none := by
      rw [List.find?_eq_none]
      intro x hx
      simp [hall x hx]
    have h1 : (connect_loop f (hosts_to_try host) none).1 = none :=
      (connect_loop_find f (hosts_to_try host) none).trans hfind
    rcases hc : connect_loop f (hosts_to_try host) none with ⟨o, le⟩
    rw [hc] at h1
    simp only at h1
    subst h1
    exact ⟨le.getD "Failed to connect", by simp [run_connect_phase, hc]⟩

/-- Witness for C7 at concrete inputs: a case-insensitive `"LocalHost"`
expands to the loopback candidates, any other host is attempted alone, and
with every attempt refused the phase yields one `Error` event and no
session. -/
theorem connect_fallback_c7_witness :
    hosts_to_try "LocalHost" = ["localhost", "127.0.0.1"] ∧
    hosts_to_try "example.com" = ["example.com"] ∧
    (∃ e, run_connect_phase "LocalHost" (fun _ => AttemptResult.connErr "refused") =
      ([MqttEvent.error e], none)) := by
  refine ⟨(connect_fallback_c7 "LocalHost" (fun _ => AttemptResult.connErr "refused")).1
      (by decide),
    (connect_fallback_c7 "example.com" (fun _ => AttemptResult.connErr "refused")).2.1
      (by decide),
    (connect_fallback_c7 "LocalHost" (fun _ => AttemptResult.connErr "refused")).2.2.2.2
      (by intro h hm; rfl)⟩

/-- C9: the command relay's initial subscriptions — with an empty configured
subscription list it subscribes exactly to the wildcard `"#"` at
at-most-once; with a non-empty list it issues exactly the configured
subscriptions with their mapped QoS and no wildcard beyond them. -/
theorem default_wildcard_subscribe_c9 (subs : List Subscription) :
    (subs = [] → initial_subscribes subs = [("#", QoS.atMostOnce)]) ∧
    (subs ≠ [] → initial_subscribes subs =
      subs.map (fun s => (s.topic, subscribe_qos s.qos))) := by
  constructor
  · intro h; subst h; simp [initial_subscribes]
  · intro h
    cases subs with
    | nil => exact absurd rfl h
    | cons a l => simp [initial_subscribes, List.isEmpty]

/-- Witness for C9 at concrete inputs: the empty list and a one-element
list. -/
theorem default_wildcard_subscribe_c9_witness :
    initial_subscribes [] = [("#", QoS.atMostOnce)] ∧
    initial_subscribes [{ topic := "x", qos := 1 }] = [("x", QoS.atLeastOnce)] := by
  constructor
  · exact (default_wildcard_subscribe_c9 []).1 rfl
  · have h := (default_wildcard_subscribe_c9 [{ topic := "x", qos := 1 }]).2 (by simp)
    simpa [subscribe_qos] using h

/-- C10: the numeric delivery-guarantee byte is mapped identically at the
subscribe and publish sites: 0 to at-most-once, 1 to at-least-once, and
every other value to exactly-once. -/
theorem qos_mapping_c10 (q : Nat) :
    (q = 0 → subscribe_qos q = QoS.atMostOnce ∧ publish_qos q = QoS.atMostOnce) ∧
    (q = 1 → subscribe_qos q = QoS.atLeastOnce ∧ publish_qos q = QoS.atLeastOnce) ∧
    (q ≠ 0 → q ≠ 1 → subscribe_qos q = QoS.exactlyOnce ∧ publish_qos q = QoS.exactlyOnce) := by
  refine ⟨?_, ?_, ?_⟩
  · rintro rfl; exact ⟨rfl, rfl⟩
  · rintro rfl; exact ⟨rfl, rfl⟩
  · intro h0 h1
    match q, h0, h1 with
    | 0, h0, _ => exact absurd rfl h0
    | 1, _, h1 => exact absurd rfl h1
    | n + 2, _, _ => exact ⟨rfl, rfl⟩

/-- Witness for C10 at concrete inputs, including the out-of-range bytes 3
and 255. -/
theorem qos_mapping_c10_witness :
    subscribe_qos 0 = QoS.atMostOnce ∧ publish_qos 0 = QoS.atMostOnce ∧
    subscribe_qos 1 = QoS.atLeastOnce ∧ publish_qos 1 = QoS.atLeastOnce ∧
    subscribe_qos 3 = QoS.exactlyOnce ∧ publish_qos 3 = QoS.exactlyOnce ∧
    subscribe_qos 255 = QoS.exactlyOnce ∧ publish_qos 255 = QoS.exactlyOnce := by
  have h0 := (qos_mapping_c10 0).1 rfl
  have h1 := (qos_mapping_c10 1).2.1 rfl
  have h3 := (qos_mapping_c10 3).2.2 (by decide) (by decide)
  have h255 := (qos_mapping_c10 255).2.2 (by decide) (by decide)
  exact ⟨h0.1, h0.2, h1.1, h1.2, h3.1, h3.2, h255.1, h255.2⟩
